import Mathlib

/-!
Shallow embedding of the `hash-chain` crate (a layered scope map):
* `ChainMap` embeds `src/map.rs` (exclusive variant),
* `LibChainMap` embeds the `ChainMap` defined at the top of `src/lib.rs`,
* `LockedChainMap` embeds `src/imutable.rs` (persistent variant,
  `im_rc::Vector` modelled as a `List`),
* `ChainSet` embeds `src/set.rs`.
Hash maps (`std::collections::HashMap`, `im_rc::HashMap`) are modelled as
association lists (`HMap`), hash sets as lists (`HSet`); only key equality is
relevant to the semantics of every operation in the crate.
-/

namespace HashChain

/-- `crate::Error` from `src/error.rs`. -/
inductive Error where
  | IndexOutOfRange
deriving DecidableEq

/-- Rust `Result<A, E>`. -/
inductive RustResult (E A : Type) where
  | ok : A → RustResult E A
  | err : E → RustResult E A
deriving DecidableEq

/-- A hash map `K -> V`, modelled as an association list. -/
abbrev HMap (K V : Type) := List (K × V)

/-- `HashMap::get`: the value bound to `k`, if any. -/
def HMap.get {K V : Type} [DecidableEq K] : HMap K V → K → Option V
  | [], _ => none
  | (k2, v) :: rest, k => if k2 = k then some v else HMap.get rest k

/-- `HashMap::insert`: binds `k` to `v` and returns the previous binding. -/
def HMap.insert {K V : Type} [DecidableEq K] : HMap K V → K → V → Option V × HMap K V
  | [], k, v => (none, [(k, v)])
  | (k2, v2) :: rest, k, v =>
    if k2 = k then (some v2, (k2, v) :: rest)
    else
      let r := HMap.insert rest k v
      (r.1, (k2, v2) :: r.2)

/-- `HashMap::contains_key`. -/
def HMap.contains_key {K V : Type} [DecidableEq K] (m : HMap K V) (k : K) : Bool :=
  (HMap.get m k).isSome

/-- A hash set of `T`, modelled as a list. -/
abbrev HSet (T : Type) := List T

/-- `HashSet::contains`. -/
def HSet.contains {T : Type} [DecidableEq T] : HSet T → T → Bool
  | [], _ => false
  | x :: rest, v => if x = v then true else HSet.contains rest v

/-- `HashSet::insert`: returns `true` iff the value was newly added. -/
def HSet.insert {T : Type} [DecidableEq T] (s : HSet T) (v : T) : Bool × HSet T :=
  if HSet.contains s v then (false, s) else (true, s ++ [v])

/-- The shared reverse scan: `for m in maps.iter().rev() { if let Some(v) = m.get(k) ... }`
applied to an already reversed list: first frame of `maps` that binds `k`. -/
def findFirst {K V : Type} [DecidableEq K] : List (HMap K V) → K → Option V
  | [], _ => none
  | m :: rest, k =>
    match HMap.get m k with
    | some v => some v
    | none => findFirst rest k

/-- First entry `(i, m)` (scanning left to right) with `m` binding `k`; used on
`enumerate().rev()`-style lists to model the indexed reverse scans. -/
def findLastIdx {K V : Type} [DecidableEq K] : List (Nat × HMap K V) → K → Option Nat
  | [], _ => none
  | (i, m) :: rest, k => if HMap.contains_key m k then some i else findLastIdx rest k

/-- `src/map.rs`: `pub struct ChainMap { maps: Vec<HashMap<K, V, S>> }`. -/
structure ChainMap (K V : Type) where
  maps : List (HMap K V)
deriving DecidableEq

/-- Leaf-frame insert shared by `ChainMap::insert` and `LibChainMap::insert`:
`let map = self.maps.last_mut()?; map.insert(key, value)`. -/
def insertLastMap {K V : Type} [DecidableEq K] : List (HMap K V) → K → V → Option V × List (HMap K V)
  | [], _, _ => (none, [])
  | [m], k, v =>
    let r := HMap.insert m k v
    (r.1, [r.2])
  | m :: m2 :: rest, k, v =>
    let r := insertLastMap (m2 :: rest) k v
    (r.1, m :: r.2)

namespace ChainMap

variable {K V : Type} [DecidableEq K]

/-- `ChainMap::new`. -/
def new (m : HMap K V) : ChainMap K V := ⟨[m]⟩

/-- `ChainMap::insert` (writes into the leaf frame, returns the prior binding). -/
def insert (c : ChainMap K V) (k : K) (v : V) : Option V × ChainMap K V :=
  let r := insertLastMap c.maps k v
  (r.1, ⟨r.2⟩)

/-- `ChainMap::insert_at`. -/
def insert_at (c : ChainMap K V) (idx : Nat) (k : K) (v : V) :
    RustResult Error (Option V) × ChainMap K V :=
  match c.maps[idx]? with
  | some m =>
    let r := HMap.insert m k v
    (RustResult.ok r.1, ⟨c.maps.set idx r.2⟩)
  | none => (RustResult.err Error.IndexOutOfRange, c)

/-- `ChainMap::get`: reverse scan over all frames. -/
def get (c : ChainMap K V) (k : K) : Option V :=
  findFirst c.maps.reverse k

/-- `ChainMap::get_mut` (lookup result of the `iter_mut().rev()` scan). -/
def get_mut (c : ChainMap K V) (k : K) : Option V :=
  findFirst c.maps.reverse k

/-- `ChainMap::get_before`: reverse scan over `maps[0..idx]`, or the whole
chain when `idx >= len`. -/
def get_before (c : ChainMap K V) (idx : Nat) (k : K) : Option V :=
  if c.maps.length ≤ idx then findFirst c.maps.reverse k
  else findFirst (c.maps.take idx).reverse k

/-- `ChainMap::get_before_mut` (lookup result; same window as `get_before`). -/
def get_before_mut (c : ChainMap K V) (idx : Nat) (k : K) : Option V :=
  if c.maps.length ≤ idx then findFirst c.maps.reverse k
  else findFirst (c.maps.take idx).reverse k

/-- `ChainMap::new_child_with`. -/
def new_child_with (c : ChainMap K V) (m : HMap K V) : ChainMap K V :=
  ⟨c.maps ++ [m]⟩

/-- `ChainMap::new_child`. -/
def new_child (c : ChainMap K V) : ChainMap K V :=
  ⟨c.maps ++ [[]]⟩

/-- `ChainMap::has_at`. -/
def has_at (c : ChainMap K V) (idx : Nat) (k : K) : Bool :=
  match c.maps[idx]? with
  | some m => HMap.contains_key m k
  | none => false

/-- `ChainMap::last_has`. -/
def last_has (c : ChainMap K V) (k : K) : Bool :=
  c.has_at (c.maps.length - 1) k

/-- `ChainMap::child_len`. -/
def child_len (c : ChainMap K V) : Nat :=
  c.maps.length

/-- `ChainMap::get_last_index`: `iter().enumerate().rev()` scan for the
highest frame index containing `k`. -/
def get_last_index (c : ChainMap K V) (k : K) : Option Nat :=
  findLastIdx c.maps.enum.reverse k

/-- `ChainMap::remove_child`. -/
def remove_child (c : ChainMap K V) : Option (HMap K V) × ChainMap K V :=
  if c.maps.length = 1 then (c.maps[0]?, ⟨c.maps.set 0 []⟩)
  else (c.maps.getLast?, ⟨c.maps.dropLast⟩)

end ChainMap

/-- The `ChainMap` defined at the top of `src/lib.rs` (exclusive variant,
no `insert_at`/`get_before`/`remove_child`). -/
structure LibChainMap (K V : Type) where
  maps : List (HMap K V)
deriving DecidableEq

namespace LibChainMap

variable {K V : Type} [DecidableEq K]

/-- `lib.rs` `ChainMap::new`. -/
def new (m : HMap K V) : LibChainMap K V := ⟨[m]⟩

/-- `lib.rs` `ChainMap::insert` (leaf write). -/
def insert (c : LibChainMap K V) (k : K) (v : V) : Option V × LibChainMap K V :=
  let r := insertLastMap c.maps k v
  (r.1, ⟨r.2⟩)

/-- `lib.rs` `ChainMap::get`: reverse scan over all frames. -/
def get (c : LibChainMap K V) (k : K) : Option V :=
  findFirst c.maps.reverse k

/-- `lib.rs` `ChainMap::get_mut`: `let map = self.maps.last_mut()?;
map.get_mut(key)` — it consults only the leaf frame. -/
def get_mut (c : LibChainMap K V) (k : K) : Option V :=
  match c.maps.getLast? with
  | some m => HMap.get m k
  | none => none

/-- `lib.rs` `ChainMap::new_child`. -/
def new_child (c : LibChainMap K V) : LibChainMap K V :=
  ⟨c.maps ++ [[]]⟩

end LibChainMap

/-- `src/imutable.rs`: `pub struct LockedChainMap { maps: Vector<HashMap<K, V, S>> }`
(the persistent `im_rc::Vector` modelled by its sequence of frames). -/
structure LockedChainMap (K V : Type) where
  maps : List (HMap K V)
deriving DecidableEq

/-- The loop of `LockedChainMap::get_before`:
`for i in (0..idx).rev() { if let Some(map) = self.maps.get(i) ... }`. -/
def lockedGetBeforeAux {K V : Type} [DecidableEq K] (maps : List (HMap K V)) (k : K) :
    Nat → Option V
  | 0 => none
  | i + 1 =>
    match maps[i]? with
    | some m =>
      match HMap.get m k with
      | some v => some v
      | none => lockedGetBeforeAux maps k i
    | none => lockedGetBeforeAux maps k i

/-- The loop of `LockedChainMap::get_before_mut`:
`for (i, map) in self.maps.iter_mut().enumerate().rev() { if i > idx { continue; } ... }`
run on the `enumerate().rev()` list: frames with index `> idx` are skipped. -/
def findEnumRevLe {K V : Type} [DecidableEq K] : List (Nat × HMap K V) → Nat → K → Option V
  | [], _, _ => none
  | (i, m) :: rest, idx, k =>
    if idx < i then findEnumRevLe rest idx k
    else
      match HMap.get m k with
      | some v => some v
      | none => findEnumRevLe rest idx k

/-- Index-returning form of the `get_before_mut` loop (which frame the
returned `&mut V` lives in); used to model writes through the reference. -/
def findEnumRevLeIdx {K V : Type} [DecidableEq K] : List (Nat × HMap K V) → Nat → K → Option Nat
  | [], _, _ => none
  | (i, m) :: rest, idx, k =>
    if idx < i then findEnumRevLeIdx rest idx k
    else if HMap.contains_key m k then some i else findEnumRevLeIdx rest idx k

/-- Writing `w` through a `&mut V` handle that points into frame `found`:
the value bound to `k` in that frame is replaced by `w`. -/
def writeAtFound {K V : Type} [DecidableEq K] (maps : List (HMap K V)) (found : Option Nat)
    (k : K) (w : V) : List (HMap K V) :=
  match found with
  | some i =>
    match maps[i]? with
    | some m => maps.set i (HMap.insert m k w).2
    | none => maps
  | none => maps

namespace LockedChainMap

variable {K V : Type} [DecidableEq K]

/-- `LockedChainMap::new`. -/
def new (m : HMap K V) : LockedChainMap K V := ⟨[m]⟩

/-- `LockedChainMap::insert`: `self.maps.get_mut(self.maps.len() - 1)?`. -/
def insert (c : LockedChainMap K V) (k : K) (v : V) : Option V × LockedChainMap K V :=
  match c.maps[c.maps.length - 1]? with
  | some m =>
    let r := HMap.insert m k v
    (r.1, ⟨c.maps.set (c.maps.length - 1) r.2⟩)
  | none => (none, c)

/-- `LockedChainMap::insert_at`. -/
def insert_at (c : LockedChainMap K V) (idx : Nat) (k : K) (v : V) :
    RustResult Error (Option V) × LockedChainMap K V :=
  match c.maps[idx]? with
  | some m =>
    let r := HMap.insert m k v
    (RustResult.ok r.1, ⟨c.maps.set idx r.2⟩)
  | none => (RustResult.err Error.IndexOutOfRange, c)

/-- `LockedChainMap::get`: reverse scan over all frames. -/
def get (c : LockedChainMap K V) (k : K) : Option V :=
  findFirst c.maps.reverse k

/-- `LockedChainMap::get_mut` (lookup result of the `iter_mut().rev()` scan). -/
def get_mut (c : LockedChainMap K V) (k : K) : Option V :=
  findFirst c.maps.reverse k

/-- `LockedChainMap::get_before`. -/
def get_before (c : LockedChainMap K V) (idx : Nat) (k : K) : Option V :=
  lockedGetBeforeAux c.maps k idx

/-- `LockedChainMap::get_before_mut` (lookup result). -/
def get_before_mut (c : LockedChainMap K V) (idx : Nat) (k : K) : Option V :=
  findEnumRevLe c.maps.enum.reverse idx k

/-- `LockedChainMap::new_child_with`. -/
def new_child_with (c : LockedChainMap K V) (m : HMap K V) : LockedChainMap K V :=
  ⟨c.maps ++ [m]⟩

/-- `LockedChainMap::new_child`. -/
def new_child (c : LockedChainMap K V) : LockedChainMap K V :=
  ⟨c.maps ++ [[]]⟩

/-- `LockedChainMap::has_at`. -/
def has_at (c : LockedChainMap K V) (idx : Nat) (k : K) : Bool :=
  match c.maps[idx]? with
  | some m => HMap.contains_key m k
  | none => false

/-- `LockedChainMap::last_has`. -/
def last_has (c : LockedChainMap K V) (k : K) : Bool :=
  c.has_at (c.maps.length - 1) k

/-- `LockedChainMap::child_len`. -/
def child_len (c : LockedChainMap K V) : Nat :=
  c.maps.length

/-- `LockedChainMap::get_last_index`. -/
def get_last_index (c : LockedChainMap K V) (k : K) : Option Nat :=
  findLastIdx c.maps.enum.reverse k

/-- `LockedChainMap::split_off`: `Vector::split_off(idx)` keeps `[0, idx)` in
`self` (first component) and returns `[idx, len)` (second component). -/
def split_off (c : LockedChainMap K V) (idx : Nat) :
    LockedChainMap K V × LockedChainMap K V :=
  (⟨c.maps.take idx⟩, ⟨c.maps.drop idx⟩)

/-- `LockedChainMap::append`. -/
def append (c : LockedChainMap K V) (other : LockedChainMap K V) : LockedChainMap K V :=
  ⟨c.maps ++ other.maps⟩

/-- `LockedChainMap::remove_child`. -/
def remove_child (c : LockedChainMap K V) : Option (HMap K V) × LockedChainMap K V :=
  if c.maps.length = 1 then (c.maps[0]?, ⟨c.maps.set 0 []⟩)
  else (c.maps.getLast?, ⟨c.maps.dropLast⟩)

end LockedChainMap

/-- `src/set.rs`: `pub struct ChainSet { sets: Vec<HashSet<T>> }`. -/
structure ChainSet (T : Type) where
  sets : List (HSet T)
deriving DecidableEq

/-- `ChainSet::insert` on the frame list: insert into the leaf set when one
exists (`if let Some(set) = self.sets.last_mut()`), otherwise push a fresh
one-element set and return `false` (the fallback branch). -/
def insertLastSet {T : Type} [DecidableEq T] : List (HSet T) → T → Bool × List (HSet T)
  | [], v => (false, [[v]])
  | [s], v =>
    let r := HSet.insert s v
    (r.1, [r.2])
  | s :: s2 :: rest, v =>
    let r := insertLastSet (s2 :: rest) v
    (r.1, s :: r.2)

namespace ChainSet

variable {T : Type} [DecidableEq T]

/-- `ChainSet::new`. -/
def new (s : HSet T) : ChainSet T := ⟨[s]⟩

/-- `ChainSet::insert`. -/
def insert (c : ChainSet T) (v : T) : Bool × ChainSet T :=
  let r := insertLastSet c.sets v
  (r.1, ⟨r.2⟩)

/-- `ChainSet::new_child`. -/
def new_child (c : ChainSet T) : ChainSet T :=
  ⟨c.sets ++ [[]]⟩

/-- `ChainSet::new_child_with`. -/
def new_child_with (c : ChainSet T) (s : HSet T) : ChainSet T :=
  ⟨c.sets ++ [s]⟩

/-- `ChainSet::remove_child`. -/
def remove_child (c : ChainSet T) : Option (HSet T) × ChainSet T :=
  if c.sets.length = 1 then (c.sets[0]?, ⟨c.sets.set 0 []⟩)
  else (c.sets.getLast?, ⟨c.sets.dropLast⟩)

end ChainSet

/-- Modelled from the spec (for the refinement statement only): "A lookup for
key `K` returns the value from the highest-indexed frame that contains `K`";
later frames take priority, recursing from the front of the frame list. -/
def specLookup {K V : Type} [DecidableEq K] : List (HMap K V) → K → Option V
  | [], _ => none
  | m :: rest, k =>
    match specLookup rest k with
    | some v => some v
    | none => HMap.get m k

namespace ChainMap

variable {K V : Type} [DecidableEq K]

/-- `*self.get_mut(k).unwrap() = w`: writing through the reference returned by
`ChainMap::get_mut` (a no-op when the key is absent from every frame). -/
def write_get_mut (c : ChainMap K V) (k : K) (w : V) : ChainMap K V :=
  ⟨writeAtFound c.maps (findLastIdx c.maps.enum.reverse k) k w⟩

/-- Writing through the reference returned by `ChainMap::get_before_mut`:
the window is `maps[0..idx]`, or the whole chain when `idx >= len`. -/
def write_get_before_mut (c : ChainMap K V) (idx : Nat) (k : K) (w : V) : ChainMap K V :=
  if c.maps.length ≤ idx then
    ⟨writeAtFound c.maps (findLastIdx c.maps.enum.reverse k) k w⟩
  else
    ⟨writeAtFound c.maps (findLastIdx (c.maps.take idx).enum.reverse k) k w⟩

end ChainMap

namespace LockedChainMap

variable {K V : Type} [DecidableEq K]

/-- Writing through the reference returned by `LockedChainMap::get_mut`. -/
def write_get_mut (c : LockedChainMap K V) (k : K) (w : V) : LockedChainMap K V :=
  ⟨writeAtFound c.maps (findLastIdx c.maps.enum.reverse k) k w⟩

/-- Writing through the reference returned by `LockedChainMap::get_before_mut`
(the loop that skips only frames with index `> idx`). -/
def write_get_before_mut (c : LockedChainMap K V) (idx : Nat) (k : K) (w : V) :
    LockedChainMap K V :=
  ⟨writeAtFound c.maps (findEnumRevLeIdx c.maps.enum.reverse idx k) k w⟩

end LockedChainMap

/-- A `push_child`/`pop_child` step (`new_child` / `remove_child`). -/
inductive Op where
  | push
  | pop
deriving DecidableEq

/-- Number of pushes in a sequence of operations. -/
def nPush : List Op → Nat
  | [] => 0
  | Op.push :: rest => nPush rest + 1
  | Op.pop :: rest => nPush rest

/-- Number of pops in a sequence of operations. -/
def nPop : List Op → Nat
  | [] => 0
  | Op.push :: rest => nPop rest
  | Op.pop :: rest => nPop rest + 1

/-- Apply one push/pop step to a `ChainMap`. -/
def applyOp {K V : Type} (c : ChainMap K V) : Op → ChainMap K V
  | Op.push => c.new_child
  | Op.pop => (c.remove_child).2

/-- Apply a sequence of push/pop steps to a `ChainMap`, left to right. -/
def applyOps {K V : Type} (c : ChainMap K V) : List Op → ChainMap K V
  | [] => c
  | op :: rest => applyOps (applyOp c op) rest

/-- `ChainMap` values reachable from the public constructors (`new`, and
`default`, which is `new` of the empty frame) by the public mutating
operations of `src/map.rs`. -/
inductive ReachableM {K V : Type} [DecidableEq K] : ChainMap K V → Prop where
  | new : ∀ m, ReachableM (ChainMap.new m)
  | ins : ∀ c k v, ReachableM c → ReachableM (ChainMap.insert c k v).2
  | insAt : ∀ c idx k v, ReachableM c → ReachableM (ChainMap.insert_at c idx k v).2
  | child : ∀ c, ReachableM c → ReachableM (ChainMap.new_child c)
  | childWith : ∀ c m, ReachableM c → ReachableM (ChainMap.new_child_with c m)
  | removeChild : ∀ c, ReachableM c → ReachableM (ChainMap.remove_child c).2
  | writeGetMut : ∀ c k w, ReachableM c → ReachableM (ChainMap.write_get_mut c k w)
  | writeGetBeforeMut : ∀ c idx k w, ReachableM c →
      ReachableM (ChainMap.write_get_before_mut c idx k w)

/-- `LockedChainMap` values reachable from the public constructors by any
sequence of public mutating operations of `src/imutable.rs`, including
`split_off` (both the truncated original and the returned suffix) and
`append`. -/
inductive ReachableL {K V : Type} [DecidableEq K] : LockedChainMap K V → Prop where
  | new : ∀ m, ReachableL (LockedChainMap.new m)
  | ins : ∀ c k v, ReachableL c → ReachableL (LockedChainMap.insert c k v).2
  | insAt : ∀ c idx k v, ReachableL c → ReachableL (LockedChainMap.insert_at c idx k v).2
  | child : ∀ c, ReachableL c → ReachableL (LockedChainMap.new_child c)
  | childWith : ∀ c m, ReachableL c → ReachableL (LockedChainMap.new_child_with c m)
  | removeChild : ∀ c, ReachableL c → ReachableL (LockedChainMap.remove_child c).2
  | writeGetMut : ∀ c k w, ReachableL c → ReachableL (LockedChainMap.write_get_mut c k w)
  | writeGetBeforeMut : ∀ c idx k w, ReachableL c →
      ReachableL (LockedChainMap.write_get_before_mut c idx k w)
  | splitLeft : ∀ c idx, ReachableL c → ReachableL (LockedChainMap.split_off c idx).1
  | splitRight : ∀ c idx, ReachableL c → ReachableL (LockedChainMap.split_off c idx).2
  | app : ∀ c other, ReachableL c → ReachableL other →
      ReachableL (LockedChainMap.append c other)

/-- `LockedChainMap` values reachable by the public operations other than
`split_off` (`append` may still absorb an arbitrary second chain). -/
inductive ReachableLCore {K V : Type} [DecidableEq K] : LockedChainMap K V → Prop where
  | new : ∀ m, ReachableLCore (LockedChainMap.new m)
  | ins : ∀ c k v, ReachableLCore c → ReachableLCore (LockedChainMap.insert c k v).2
  | insAt : ∀ c idx k v, ReachableLCore c →
      ReachableLCore (LockedChainMap.insert_at c idx k v).2
  | child : ∀ c, ReachableLCore c → ReachableLCore (LockedChainMap.new_child c)
  | childWith : ∀ c m, ReachableLCore c →
      ReachableLCore (LockedChainMap.new_child_with c m)
  | removeChild : ∀ c, ReachableLCore c → ReachableLCore (LockedChainMap.remove_child c).2
  | writeGetMut : ∀ c k w, ReachableLCore c →
      ReachableLCore (LockedChainMap.write_get_mut c k w)
  | writeGetBeforeMut : ∀ c idx k w, ReachableLCore c →
      ReachableLCore (LockedChainMap.write_get_before_mut c idx k w)
  | app : ∀ c other, ReachableLCore c → ReachableLCore (LockedChainMap.append c other)

/-- `ChainSet` values reachable from the public constructors (`new`,
`default`) by the public mutating operations of `src/set.rs`. -/
inductive ReachableS {T : Type} [DecidableEq T] : ChainSet T → Prop where
  | new : ∀ s, ReachableS (ChainSet.new s)
  | ins : ∀ c v, ReachableS c → ReachableS (ChainSet.insert c v).2
  | child : ∀ c, ReachableS c → ReachableS (ChainSet.new_child c)
  | childWith : ∀ c s, ReachableS c → ReachableS (ChainSet.new_child_with c s)
  | removeChild : ∀ c, ReachableS c → ReachableS (ChainSet.remove_child c).2

/-! ### Helper lemmas -/

theorem hmapInsertFst {K V : Type} [DecidableEq K] (m : HMap K V) (k : K) (v : V) :
    (HMap.insert m k v).1 = HMap.get m k := by
  induction m with
  | nil => rfl
  | cons p rest ih =>
    obtain ⟨k2, v2⟩ := p
    by_cases h : k2 = k <;> simp [HMap.insert, HMap.get, h, ih]

theorem hsetInsertFst {T : Type} [DecidableEq T] (s : HSet T) (v : T) :
    (HSet.insert s v).1 = !(HSet.contains s v) := by
  by_cases h : HSet.contains s v <;> simp [HSet.insert, h]

theorem findFirst_append {K V : Type} [DecidableEq K] (l1 l2 : List (HMap K V)) (k : K) :
    findFirst (l1 ++ l2) k =
      match findFirst l1 k with
      | some v => some v
      | none => findFirst l2 k := by
  induction l1 with
  | nil => simp [findFirst]
  | cons m rest ih =>
    simp only [List.cons_append, findFirst]
    cases HMap.get m k <;> simp [ih]

theorem findFirst_reverse_eq_specLookup {K V : Type} [DecidableEq K]
    (maps : List (HMap K V)) (k : K) :
    findFirst maps.reverse k = specLookup maps k := by
  induction maps with
  | nil => rfl
  | cons m rest ih =>
    rw [List.reverse_cons, findFirst_append, ih]
    cases hs : specLookup rest k with
    | some v => simp [specLookup, hs]
    | none =>
      cases h : HMap.get m k <;> simp [specLookup, findFirst, hs, h]

theorem insertLastMap_length {K V : Type} [DecidableEq K]
    (maps : List (HMap K V)) (k : K) (v : V) :
    ((insertLastMap maps k v).2).length = maps.length := by
  induction maps with
  | nil => rfl
  | cons m rest ih =>
    cases rest with
    | nil => simp [insertLastMap]
    | cons m2 rest2 =>
      simp only [insertLastMap, List.length_cons]
      simpa using ih

theorem insertLastSet_length {T : Type} [DecidableEq T]
    (sets : List (HSet T)) (v : T) (h : 1 ≤ sets.length) :
    ((insertLastSet sets v).2).length = sets.length := by
  induction sets with
  | nil => simp at h
  | cons s rest ih =>
    cases rest with
    | nil => simp [insertLastSet]
    | cons s2 rest2 =>
      simp only [insertLastSet, List.length_cons]
      have := ih (by simp)
      simpa using this

theorem insertLastSet_spec {T : Type} [DecidableEq T] (sets : List (HSet T)) (v : T) :
    ∀ leaf : HSet T, sets.getLast? = some leaf →
      insertLastSet sets v =
        ((HSet.insert leaf v).1, sets.dropLast ++ [(HSet.insert leaf v).2]) := by
  induction sets with
  | nil => intro leaf h; simp at h
  | cons s rest ih =>
    intro leaf h
    cases rest with
    | nil =>
      simp only [List.getLast?_singleton, Option.some_inj] at h
      subst h
      simp [insertLastSet]
    | cons s2 rest2 =>
      rw [List.getLast?_cons_cons] at h
      have e := ih leaf h
      simp [insertLastSet, e]

theorem lockedGetBeforeAux_eq {K V : Type} [DecidableEq K]
    (maps : List (HMap K V)) (k : K) :
    ∀ idx, lockedGetBeforeAux maps k idx = findFirst ((maps.take idx).reverse) k := by
  intro idx
  induction idx with
  | zero => rfl
  | succ i ih =>
    cases h : maps[i]? with
    | none =>
      have hlen : maps.length ≤ i := List.getElem?_eq_none_iff.mp h
      have e1 : maps.take (i + 1) = maps :=
        List.take_of_length_le (Nat.le_trans hlen (Nat.le_succ i))
      have e2 : maps.take i = maps := List.take_of_length_le hlen
      simp only [lockedGetBeforeAux, h, e1]
      rw [ih, e2]
    | some m =>
      have e1 : maps.take (i + 1) = maps.take i ++ [m] := by
        rw [List.take_succ, h]; rfl
      simp only [lockedGetBeforeAux, h, e1, List.reverse_append]
      cases hg : HMap.get m k <;> simp [findFirst, hg, ih]

theorem chainMap_get_before_eq {K V : Type} [DecidableEq K]
    (maps : List (HMap K V)) (idx : Nat) (k : K) :
    ChainMap.get_before ⟨maps⟩ idx k = findFirst ((maps.take idx).reverse) k := by
  by_cases h : maps.length ≤ idx
  · simp [ChainMap.get_before, h, List.take_of_length_le h]
  · simp [ChainMap.get_before, h]

theorem writeAtFound_length {K V : Type} [DecidableEq K]
    (maps : List (HMap K V)) (found : Option Nat) (k : K) (w : V) :
    (writeAtFound maps found k w).length = maps.length := by
  unfold writeAtFound
  cases found with
  | none => rfl
  | some i =>
    cases h : maps[i]? with
    | none => simp [h]
    | some m => simp [h, List.length_set]

theorem reachableM_length {K V : Type} [DecidableEq K] :
    ∀ c : ChainMap K V, ReachableM c → 1 ≤ c.maps.length := by
  intro c h
  induction h with
  | new m => simp [ChainMap.new]
  | ins c k v _ ih => simpa [ChainMap.insert, insertLastMap_length] using ih
  | insAt c idx k v _ ih =>
    unfold ChainMap.insert_at
    cases h2 : c.maps[idx]? with
    | none => simpa using ih
    | some m => simpa [List.length_set] using ih
  | child c _ ih => simp [ChainMap.new_child]
  | childWith c m _ ih => simp [ChainMap.new_child_with]
  | removeChild c _ ih =>
    unfold ChainMap.remove_child
    by_cases h1 : c.maps.length = 1
    · simp [h1, List.length_set]
    · simp only [h1, if_false, List.length_dropLast]
      omega
  | writeGetMut c k w _ ih =>
    simpa [ChainMap.write_get_mut, writeAtFound_length] using ih
  | writeGetBeforeMut c idx k w _ ih =>
    unfold ChainMap.write_get_before_mut
    by_cases h1 : c.maps.length ≤ idx <;> simpa [h1, writeAtFound_length] using ih

theorem reachableLCore_length {K V : Type} [DecidableEq K] :
    ∀ c : LockedChainMap K V, ReachableLCore c → 1 ≤ c.maps.length := by
  intro c h
  induction h with
  | new m => simp [LockedChainMap.new]
  | ins c k v _ ih =>
    unfold LockedChainMap.insert
    cases h2 : c.maps[c.maps.length - 1]? with
    | none => simpa using ih
    | some m => simpa [List.length_set] using ih
  | insAt c idx k v _ ih =>
    unfold LockedChainMap.insert_at
    cases h2 : c.maps[idx]? with
    | none => simpa using ih
    | some m => simpa [List.length_set] using ih
  | child c _ ih => simp [LockedChainMap.new_child]
  | childWith c m _ ih => simp [LockedChainMap.new_child_with]
  | removeChild c _ ih =>
    unfold LockedChainMap.remove_child
    by_cases h1 : c.maps.length = 1
    · simp [h1, List.length_set]
    · simp only [h1, if_false, List.length_dropLast]
      omega
  | writeGetMut c k w _ ih =>
    simpa [LockedChainMap.write_get_mut, writeAtFound_length] using ih
  | writeGetBeforeMut c idx k w _ ih =>
    simpa [LockedChainMap.write_get_before_mut, writeAtFound_length] using ih
  | app c other h1 ih1 =>
    simp only [LockedChainMap.append, List.length_append]
    omega

theorem reachableS_length {T : Type} [DecidableEq T] :
    ∀ c : ChainSet T, ReachableS c → 1 ≤ c.sets.length := by
  intro c h
  induction h with
  | new s => simp [ChainSet.new]
  | ins c v _ ih => simpa [ChainSet.insert, insertLastSet_length _ _ ih] using ih
  | child c _ ih => simp [ChainSet.new_child]
  | childWith c s _ ih => simp [ChainSet.new_child_with]
  | removeChild c _ ih =>
    unfold ChainSet.remove_child
    by_cases h1 : c.sets.length = 1
    · simp [h1, List.length_set]
    · simp only [h1, if_false, List.length_dropLast]
      omega

/-! ### Claim theorems -/

/-- C1, counterexample: on the `ChainSet` whose root frame contains `0` (and
`1`) with a freshly pushed empty child frame, `insert 0` returns `true` (the
claim requires `false`) and the child frame does gain `0` (the claim requires
it not to): `ChainSet::insert` consults only the leaf frame. -/
theorem chainSet_insert_ancestor_shadow_cex :
    HSet.contains ([0, 1] : HSet Nat) 0 = true ∧
    (ChainSet.insert (⟨[[0, 1], []]⟩ : ChainSet Nat) 0).1 = true ∧
    (ChainSet.insert (⟨[[0, 1], []]⟩ : ChainSet Nat) 0).2 = ⟨[[0, 1], [0]]⟩ := by
  decide

/-- C1 (amended): for every `ChainSet` with leaf frame `leaf`, `insert v`
returns `true` iff `v` was not already present in the leaf frame alone —
ancestor frames are never consulted — and the leaf is the only frame
changed: it becomes `leaf` with `v` added (when absent from the leaf). -/
theorem chainSet_insert_leaf_only {T : Type} [DecidableEq T] (c : ChainSet T) (v : T)
    (leaf : HSet T) (h : c.sets.getLast? = some leaf) :
    (ChainSet.insert c v).1 = !(HSet.contains leaf v) ∧
    (ChainSet.insert c v).2.sets = c.sets.dropLast ++ [(HSet.insert leaf v).2] := by
  have e := insertLastSet_spec c.sets v leaf h
  constructor
  · simp [ChainSet.insert, e, hsetInsertFst]
  · simp [ChainSet.insert, e]

/-- C1, witness for the amended theorem at a concrete chain. -/
theorem chainSet_insert_leaf_only_witness :
    (ChainSet.insert (⟨[[2], [5]]⟩ : ChainSet Nat) 5).1 = !(HSet.contains [5] 5) ∧
    (ChainSet.insert (⟨[[2], [5]]⟩ : ChainSet Nat) 5).2.sets =
      ([[2], [5]] : List (HSet Nat)).dropLast ++ [(HSet.insert [5] 5).2] :=
  chainSet_insert_leaf_only ⟨[[2], [5]]⟩ 5 [5] (by decide)

/-- C2: evaluation of the code at the failing input. On the chain with frames
`[{0 ↦ 1}, {0 ↦ 2}]`, `LockedChainMap::get_before_mut 1 0` returns the
binding of frame `1` itself (value `2`) because the loop skips only frames
with index strictly greater than `idx`; the claim — and the repository's own
test `get_before_mut_exists`, and `ChainMap::get_before_mut` and
`LockedChainMap::get_before` on the same input — require the window `[0, 1)`,
i.e. the root frame's value `1`. -/
theorem lockedChainMap_get_before_mut_includes_idx :
    LockedChainMap.get_before_mut (⟨[[(0, 1)], [(0, 2)]]⟩ : LockedChainMap Nat Nat) 1 0
      = some 2 ∧
    ChainMap.get_before_mut (⟨[[(0, 1)], [(0, 2)]]⟩ : ChainMap Nat Nat) 1 0 = some 1 ∧
    LockedChainMap.get_before (⟨[[(0, 1)], [(0, 2)]]⟩ : LockedChainMap Nat Nat) 1 0
      = some 1 := by
  decide

/-- C3, counterexample: on the `lib.rs` `ChainMap` with frames
`[{0 ↦ 5}, {}]` (key `0` bound only in the root, empty child pushed),
`get_mut 0` returns `none` although the highest-indexed frame containing `0`
binds it to `5` (as `get` and the spec-level lookup report). -/
theorem libChainMap_get_mut_leaf_only_cex :
    LibChainMap.get_mut (⟨[[(0, 5)], []]⟩ : LibChainMap Nat Nat) 0 = none ∧
    LibChainMap.get (⟨[[(0, 5)], []]⟩ : LibChainMap Nat Nat) 0 = some 5 ∧
    specLookup ([[(0, 5)], []] : List (HMap Nat Nat)) 0 = some 5 := by
  decide

/-- C3 (amended): `get` in both exclusive implementations and `get_mut` in
`src/map.rs` return the binding of the highest-indexed frame containing the
key (`none` if no frame contains it); the `src/lib.rs` `ChainMap::get_mut`
instead consults only the leaf frame. -/
theorem chainMap_lookup_highest_frame {K V : Type} [DecidableEq K]
    (maps : List (HMap K V)) (k : K) :
    ChainMap.get ⟨maps⟩ k = specLookup maps k ∧
    ChainMap.get_mut ⟨maps⟩ k = specLookup maps k ∧
    LibChainMap.get ⟨maps⟩ k = specLookup maps k ∧
    (∀ leaf, maps.getLast? = some leaf → LibChainMap.get_mut ⟨maps⟩ k = HMap.get leaf k) := by
  refine ⟨findFirst_reverse_eq_specLookup maps k, findFirst_reverse_eq_specLookup maps k,
    findFirst_reverse_eq_specLookup maps k, ?_⟩
  intro leaf h
  simp [LibChainMap.get_mut, h]

/-- C3, witness for the amended theorem at a concrete chain. -/
theorem chainMap_lookup_highest_frame_witness :
    LibChainMap.get_mut (⟨[[(0, 5)], [(1, 7)]]⟩ : LibChainMap Nat Nat) 1 = HMap.get [(1, 7)] 1 :=
  (chainMap_lookup_highest_frame [[(0, 5)], [(1, 7)]] 1).2.2.2 [(1, 7)] (by decide)

/-- C4: on element-wise equal frame sequences the reads `get`, `get_before`,
`has_at` and `get_last_index` of the exclusive `ChainMap` and the persistent
`LockedChainMap` agree for every key and every index; when `idx ≥ len`,
`get_before` searches the entire chain on both. -/
theorem locked_reads_agree_with_exclusive {K V : Type} [DecidableEq K]
    (maps : List (HMap K V)) (idx : Nat) (k : K) :
    ChainMap.get ⟨maps⟩ k = LockedChainMap.get ⟨maps⟩ k ∧
    ChainMap.get_before ⟨maps⟩ idx k = LockedChainMap.get_before ⟨maps⟩ idx k ∧
    ChainMap.has_at ⟨maps⟩ idx k = LockedChainMap.has_at ⟨maps⟩ idx k ∧
    ChainMap.get_last_index ⟨maps⟩ k = LockedChainMap.get_last_index ⟨maps⟩ k ∧
    (maps.length ≤ idx →
      ChainMap.get_before ⟨maps⟩ idx k = ChainMap.get ⟨maps⟩ k ∧
      LockedChainMap.get_before ⟨maps⟩ idx k = LockedChainMap.get ⟨maps⟩ k) := by
  refine ⟨rfl, ?_, rfl, rfl, ?_⟩
  · rw [chainMap_get_before_eq]
    exact (lockedGetBeforeAux_eq maps k idx).symm
  · intro h
    constructor
    · simp [ChainMap.get_before, ChainMap.get, h]
    · unfold LockedChainMap.get_before LockedChainMap.get
      rw [lockedGetBeforeAux_eq, List.take_of_length_le h]

/-- C4, witness: the `idx ≥ len` case at a concrete chain. -/
theorem locked_reads_agree_with_exclusive_witness :
    ChainMap.get_before (⟨[[(0, 3)]]⟩ : ChainMap Nat Nat) 5 0 =
      ChainMap.get (⟨[[(0, 3)]]⟩ : ChainMap Nat Nat) 0 ∧
    LockedChainMap.get_before (⟨[[(0, 3)]]⟩ : LockedChainMap Nat Nat) 5 0 =
      LockedChainMap.get (⟨[[(0, 3)]]⟩ : LockedChainMap Nat Nat) 0 :=
  (locked_reads_agree_with_exclusive [[(0, 3)]] 5 0).2.2.2.2 (by decide)

theorem chainMap_insert_at_spec_aux {K V : Type} [DecidableEq K]
    (c : ChainMap K V) (idx : Nat) (k : K) (v : V) :
    ((ChainMap.insert_at c idx k v).1 = RustResult.err Error.IndexOutOfRange ↔
        c.maps.length ≤ idx) ∧
    (c.maps.length ≤ idx → (ChainMap.insert_at c idx k v).2 = c) ∧
    (∀ m, c.maps[idx]? = some m →
      (ChainMap.insert_at c idx k v).1 = RustResult.ok (HMap.get m k) ∧
      (ChainMap.insert_at c idx k v).2.maps = c.maps.set idx (HMap.insert m k v).2) := by
  unfold ChainMap.insert_at
  cases h : c.maps[idx]? with
  | none =>
    have hlen : c.maps.length ≤ idx := List.getElem?_eq_none_iff.mp h
    refine ⟨by simp [hlen], fun _ => rfl, ?_⟩
    intro m hm
    simp at hm
  | some m0 =>
    have hlt : idx < c.maps.length := (List.getElem?_eq_some.mp h).1
    refine ⟨?_, ?_, ?_⟩
    · simp only []
      constructor
      · intro he; cases he
      · intro hle; omega
    · intro hle; omega
    · intro m hm
      injection hm with hm2
      subst hm2
      exact ⟨by simp [hmapInsertFst], rfl⟩

theorem lockedChainMap_insert_at_spec_aux {K V : Type} [DecidableEq K]
    (d : LockedChainMap K V) (idx : Nat) (k : K) (v : V) :
    ((LockedChainMap.insert_at d idx k v).1 = RustResult.err Error.IndexOutOfRange ↔
        d.maps.length ≤ idx) ∧
    (d.maps.length ≤ idx → (LockedChainMap.insert_at d idx k v).2 = d) ∧
    (∀ m, d.maps[idx]? = some m →
      (LockedChainMap.insert_at d idx k v).1 = RustResult.ok (HMap.get m k) ∧
      (LockedChainMap.insert_at d idx k v).2.maps = d.maps.set idx (HMap.insert m k v).2) := by
  unfold LockedChainMap.insert_at
  cases h : d.maps[idx]? with
  | none =>
    have hlen : d.maps.length ≤ idx := List.getElem?_eq_none_iff.mp h
    refine ⟨by simp [hlen], fun _ => rfl, ?_⟩
    intro m hm
    simp at hm
  | some m0 =>
    have hlt : idx < d.maps.length := (List.getElem?_eq_some.mp h).1
    refine ⟨?_, ?_, ?_⟩
    · simp only []
      constructor
      · intro he; cases he
      · intro hle; omega
    · intro hle; omega
    · intro m hm
      injection hm with hm2
      subst hm2
      exact ⟨by simp [hmapInsertFst], rfl⟩

/-- C5: on both the exclusive and the persistent variant, `insert_at idx k v`
returns `IndexOutOfRange` exactly when `idx ≥ len()`, leaving every frame
unchanged in that case; when `idx < len()` it returns frame `idx`'s previous
binding for `k` and writes `(k, v)` into frame `idx` only. -/
theorem insert_at_spec {K V : Type} [DecidableEq K]
    (c : ChainMap K V) (d : LockedChainMap K V) (idx : Nat) (k : K) (v : V) :
    (((ChainMap.insert_at c idx k v).1 = RustResult.err Error.IndexOutOfRange ↔
        c.maps.length ≤ idx) ∧
      (c.maps.length ≤ idx → (ChainMap.insert_at c idx k v).2 = c) ∧
      (∀ m, c.maps[idx]? = some m →
        (ChainMap.insert_at c idx k v).1 = RustResult.ok (HMap.get m k) ∧
        (ChainMap.insert_at c idx k v).2.maps = c.maps.set idx (HMap.insert m k v).2)) ∧
    (((LockedChainMap.insert_at d idx k v).1 = RustResult.err Error.IndexOutOfRange ↔
        d.maps.length ≤ idx) ∧
      (d.maps.length ≤ idx → (LockedChainMap.insert_at d idx k v).2 = d) ∧
      (∀ m, d.maps[idx]? = some m →
        (LockedChainMap.insert_at d idx k v).1 = RustResult.ok (HMap.get m k) ∧
        (LockedChainMap.insert_at d idx k v).2.maps = d.maps.set idx (HMap.insert m k v).2)) :=
  ⟨chainMap_insert_at_spec_aux c idx k v, lockedChainMap_insert_at_spec_aux d idx k v⟩

/-- C5, witness: the out-of-range case `insert_at(len(), k, v)` at length 1
leaves both concrete chains unchanged. -/
theorem insert_at_spec_witness :
    (ChainMap.insert_at (⟨[[(1, 10)]]⟩ : ChainMap Nat Nat) 1 0 5).2 = ⟨[[(1, 10)]]⟩ ∧
    (LockedChainMap.insert_at (⟨[[(1, 10)]]⟩ : LockedChainMap Nat Nat) 1 0 5).2
      = ⟨[[(1, 10)]]⟩ :=
  ⟨(insert_at_spec ⟨[[(1, 10)]]⟩ ⟨[[(1, 10)]]⟩ 1 0 5).1.2.1 (by decide),
   (insert_at_spec ⟨[[(1, 10)]]⟩ ⟨[[(1, 10)]]⟩ 1 0 5).2.2.1 (by decide)⟩

/-- C6: for chains satisfying the length invariant, `remove_child` always
returns the removed frame's contents: at `len > 1` it pops the leaf and the
length drops by one; at `len == 1` it returns the sole frame's prior contents
and leaves one empty frame, for both `ChainMap` and `ChainSet`. -/
theorem remove_child_spec {K V T : Type} :
    (∀ c : ChainMap K V, 1 ≤ c.maps.length →
      (ChainMap.remove_child c).1.isSome = true ∧
      (c.maps.length = 1 →
        (ChainMap.remove_child c).1 = c.maps[0]? ∧
        (ChainMap.remove_child c).2.maps = [[]]) ∧
      (2 ≤ c.maps.length →
        (ChainMap.remove_child c).1 = c.maps.getLast? ∧
        (ChainMap.remove_child c).2.maps.length = c.maps.length - 1)) ∧
    (∀ s : ChainSet T, 1 ≤ s.sets.length →
      (ChainSet.remove_child s).1.isSome = true ∧
      (s.sets.length = 1 →
        (ChainSet.remove_child s).1 = s.sets[0]? ∧
        (ChainSet.remove_child s).2.sets = [[]]) ∧
      (2 ≤ s.sets.length →
        (ChainSet.remove_child s).1 = s.sets.getLast? ∧
        (ChainSet.remove_child s).2.sets.length = s.sets.length - 1)) := by
  constructor
  · intro c hc
    obtain ⟨maps⟩ := c
    simp only at hc
    by_cases h1 : maps.length = 1
    · obtain ⟨a, rfl⟩ := List.length_eq_one.mp h1
      refine ⟨by simp [ChainMap.remove_child], fun _ => ⟨by simp [ChainMap.remove_child], by
        simp [ChainMap.remove_child]⟩, by intro h2; simp at h2⟩
    · have hne : maps ≠ [] := by intro contra; rw [contra] at hc; simp at hc
      refine ⟨?_, fun he => absurd he h1, fun _ => ⟨by simp [ChainMap.remove_child, h1], by
        simp [ChainMap.remove_child, h1, List.length_dropLast]⟩⟩
      simp only [ChainMap.remove_child, h1, if_false]
      exact List.getLast?_isSome.mpr hne
  · intro s hs
    obtain ⟨sets⟩ := s
    simp only at hs
    by_cases h1 : sets.length = 1
    · obtain ⟨a, rfl⟩ := List.length_eq_one.mp h1
      refine ⟨by simp [ChainSet.remove_child], fun _ => ⟨by simp [ChainSet.remove_child], by
        simp [ChainSet.remove_child]⟩, by intro h2; simp at h2⟩
    · have hne : sets ≠ [] := by intro contra; rw [contra] at hs; simp at hs
      refine ⟨?_, fun he => absurd he h1, fun _ => ⟨by simp [ChainSet.remove_child, h1], by
        simp [ChainSet.remove_child, h1, List.length_dropLast]⟩⟩
      simp only [ChainSet.remove_child, h1, if_false]
      exact List.getLast?_isSome.mpr hne

/-- C6, witness at concrete length-1 chains. -/
theorem remove_child_spec_witness :
    (ChainMap.remove_child (⟨[[(0, 1)]]⟩ : ChainMap Nat Nat)).1.isSome = true ∧
    (ChainSet.remove_child (⟨[[3]]⟩ : ChainSet Nat)).1.isSome = true :=
  ⟨((@remove_child_spec Nat Nat Nat).1 ⟨[[(0, 1)]]⟩ (by decide)).1,
   ((@remove_child_spec Nat Nat Nat).2 ⟨[[3]]⟩ (by decide)).1⟩

theorem applyOp_length_ge {K V : Type} (c : ChainMap K V) (op : Op)
    (h : 1 ≤ c.maps.length) : 1 ≤ (applyOp c op).maps.length := by
  cases op with
  | push => simp [applyOp, ChainMap.new_child]
  | pop =>
    simp only [applyOp]
    unfold ChainMap.remove_child
    by_cases h1 : c.maps.length = 1
    · simp [h1, List.length_set]
    · simp only [h1, if_false, List.length_dropLast]
      omega

theorem applyOps_length_ge {K V : Type} :
    ∀ (ops : List Op) (c : ChainMap K V), 1 ≤ c.maps.length →
      1 ≤ (applyOps c ops).maps.length := by
  intro ops
  induction ops with
  | nil => intro c h; exact h
  | cons op rest ih => intro c h; exact ih _ (applyOp_length_ge c op h)

theorem applyOps_length_count {K V : Type} :
    ∀ (ops : List Op) (c : ChainMap K V),
      1 ≤ c.maps.length →
      (∀ j, nPop (ops.take j) + 1 ≤ nPush (ops.take j) + c.maps.length) →
      (applyOps c ops).maps.length + nPop ops = c.maps.length + nPush ops := by
  intro ops
  induction ops with
  | nil =>
    intro c h1 h2
    simp [applyOps, nPush, nPop]
  | cons op rest ih =>
    intro c h1 h2
    cases op with
    | push =>
      have hlen : (applyOp c Op.push).maps.length = c.maps.length + 1 := by
        simp [applyOp, ChainMap.new_child]
      have h2r : ∀ j, nPop (rest.take j) + 1 ≤
          nPush (rest.take j) + (applyOp c Op.push).maps.length := by
        intro j
        have hj := h2 (j + 1)
        simp only [List.take_succ_cons, nPush, nPop] at hj
        omega
      have hmain := ih (applyOp c Op.push) (by omega) h2r
      simp only [applyOps, nPush, nPop] at *
      omega
    | pop =>
      have h2one := h2 1
      have hlen2 : 2 ≤ c.maps.length := by
        simp only [List.take_succ_cons, List.take_zero, nPush, nPop] at h2one
        omega
      have hne : ¬ (c.maps.length = 1) := by omega
      have hlen : (applyOp c Op.pop).maps.length = c.maps.length - 1 := by
        simp [applyOp, ChainMap.remove_child, hne, List.length_dropLast]
      have h2r : ∀ j, nPop (rest.take j) + 1 ≤
          nPush (rest.take j) + (applyOp c Op.pop).maps.length := by
        intro j
        have hj := h2 (j + 1)
        simp only [List.take_succ_cons, nPush, nPop] at hj
        omega
      have hmain := ih (applyOp c Op.pop) (by omega) h2r
      simp only [applyOps, nPush, nPop] at *
      omega

/-- C7, counterexample: from a length-1 chain, the interleaving
`[pop, push]` has `n = 1` pushes and `m = 1 ≤ n` pops, yet the final length
is `2`, not `1 + n - m = 1` — popping at length 1 clears the sole frame in
place without shrinking, so a pop that precedes every matching push breaks
the `1 + n - m` formula. -/
theorem push_pop_length_formula_cex :
    (⟨[[]]⟩ : ChainMap Nat Nat).maps.length = 1 ∧
    nPop [Op.pop, Op.push] ≤ nPush [Op.pop, Op.push] ∧
    ¬ ((applyOps (⟨[[]]⟩ : ChainMap Nat Nat) [Op.pop, Op.push]).maps.length
        = 1 + nPush [Op.pop, Op.push] - nPop [Op.pop, Op.push]) := by
  decide

/-- C7 (amended): starting from a length-1 chain, `len() ≥ 1` holds after
every step of any `push_child`/`pop_child` sequence; and whenever every
prefix of the sequence contains at least as many pushes as pops, the final
length equals `1 + n - m` for `n` pushes and `m` pops. -/
theorem push_pop_length_invariant {K V : Type} (c : ChainMap K V) (ops : List Op)
    (h : c.maps.length = 1) :
    (∀ j, 1 ≤ (applyOps c (ops.take j)).maps.length) ∧
    ((∀ j, j ≤ ops.length → nPop (ops.take j) ≤ nPush (ops.take j)) →
      (applyOps c ops).maps.length = 1 + nPush ops - nPop ops) := by
  constructor
  · intro j
    exact applyOps_length_ge _ c (by omega)
  · intro hpre
    have hall : ∀ j, nPop (ops.take j) ≤ nPush (ops.take j) := by
      intro j
      by_cases hj : j ≤ ops.length
      · exact hpre j hj
      · rw [List.take_of_length_le (by omega)]
        have hfull := hpre ops.length (Nat.le_refl _)
        rw [List.take_length] at hfull
        exact hfull
    have hcount := applyOps_length_count ops c (by omega)
      (by intro j; have := hall j; omega)
    have hfull := hall ops.length
    rw [List.take_length] at hfull
    omega

/-- C7, witness: two pushes then one pop from a length-1 chain end at
length `2 = 1 + 2 - 1`. -/
theorem push_pop_length_invariant_witness :
    (applyOps (⟨[[]]⟩ : ChainMap Nat Nat) [Op.push, Op.push, Op.pop]).maps.length
      = 1 + nPush [Op.push, Op.push, Op.pop] - nPop [Op.push, Op.push, Op.pop] :=
  (push_pop_length_invariant ⟨[[]]⟩ [Op.push, Op.push, Op.pop] (by decide)).2 (by decide)

/-- C8: for every persistent chain and every valid split index,
`split_off idx` followed by `append` of the returned suffix onto the
truncated original reconstructs the original chain, frame for frame. -/
theorem split_append_roundtrip {K V : Type} (c : LockedChainMap K V) (idx : Nat)
    (h : idx ≤ c.maps.length) :
    LockedChainMap.append (LockedChainMap.split_off c idx).1
      (LockedChainMap.split_off c idx).2 = c := by
  obtain ⟨maps⟩ := c
  simp [LockedChainMap.split_off, LockedChainMap.append]

/-- C8, witness at a chain of length 3 split at index 1. -/
theorem split_append_roundtrip_witness :
    LockedChainMap.append
      (LockedChainMap.split_off (⟨[[(0, 1)], [(1, 2)], [(2, 3)]]⟩ : LockedChainMap Nat Nat) 1).1
      (LockedChainMap.split_off (⟨[[(0, 1)], [(1, 2)], [(2, 3)]]⟩ : LockedChainMap Nat Nat) 1).2
      = ⟨[[(0, 1)], [(1, 2)], [(2, 3)]]⟩ :=
  split_append_roundtrip ⟨[[(0, 1)], [(1, 2)], [(2, 3)]]⟩ 1 (by decide)

/-- C9, counterexample: `split_off` is a public operation, and splitting a
freshly constructed chain at index 0 leaves a reachable `LockedChainMap`
whose `len()` is 0 — so `len() ≥ 1` does not hold for every reachable chain,
and on this chain the `len() - 1` inside `last_has` underflows. -/
theorem locked_split_empty_reachable_cex :
    ReachableL ((LockedChainMap.split_off (⟨[[]]⟩ : LockedChainMap Nat Nat) 0).1) ∧
    ((LockedChainMap.split_off (⟨[[]]⟩ : LockedChainMap Nat Nat) 0).1).child_len = 0 :=
  ⟨ReachableL.splitLeft _ 0 (ReachableL.new ([] : HMap Nat Nat)), rfl⟩

/-- C9 (amended): for every `ChainMap` reachable by the public operations,
and for every `LockedChainMap` reachable by the public operations other than
`split_off`, `len() ≥ 1` holds, so the subtraction `len() - 1` inside
`last_has` cannot underflow and `last_has key = has_at (len() - 1) key`. -/
theorem last_has_no_underflow {K V : Type} [DecidableEq K] :
    (∀ c : ChainMap K V, ReachableM c →
      1 ≤ c.child_len ∧
      ∀ k, ChainMap.last_has c k = ChainMap.has_at c (c.child_len - 1) k) ∧
    (∀ c : LockedChainMap K V, ReachableLCore c →
      1 ≤ c.child_len ∧
      ∀ k, LockedChainMap.last_has c k = LockedChainMap.has_at c (c.child_len - 1) k) := by
  constructor
  · intro c h
    exact ⟨reachableM_length c h, fun k => rfl⟩
  · intro c h
    exact ⟨reachableLCore_length c h, fun k => rfl⟩

/-- C9, witness at freshly constructed one-frame chains. -/
theorem last_has_no_underflow_witness :
    1 ≤ (ChainMap.new ([(0, 1)] : HMap Nat Nat)).child_len ∧
    1 ≤ (LockedChainMap.new ([(0, 1)] : HMap Nat Nat)).child_len :=
  ⟨(last_has_no_underflow.1 _ (ReachableM.new _)).1,
   (last_has_no_underflow.2 _ (ReachableLCore.new _)).1⟩

/-- C10: every `ChainSet` reachable from the public constructors by public
operations has a nonempty frame list, so `ChainSet::insert` always takes the
leaf-set branch (insert into the last set), never the fallback branch that
pushes a fresh one-element set and returns `false`. -/
theorem chainSet_insert_fallback_unreachable {T : Type} [DecidableEq T]
    (s : ChainSet T) (h : ReachableS s) :
    s.sets ≠ [] ∧
    ∀ v, ∃ leaf, s.sets.getLast? = some leaf ∧
      ChainSet.insert s v =
        ((HSet.insert leaf v).1, ⟨s.sets.dropLast ++ [(HSet.insert leaf v).2]⟩) := by
  have hlen := reachableS_length s h
  have hne : s.sets ≠ [] := by
    intro contra
    rw [contra] at hlen
    simp at hlen
  refine ⟨hne, ?_⟩
  intro v
  obtain ⟨leaf, hleaf⟩ := Option.isSome_iff_exists.mp (List.getLast?_isSome.mpr hne)
  refine ⟨leaf, hleaf, ?_⟩
  have e := insertLastSet_spec s.sets v leaf hleaf
  simp [ChainSet.insert, e]

/-- C10, witness at a freshly constructed one-frame set chain. -/
theorem chainSet_insert_fallback_unreachable_witness :
    (ChainSet.new ([3] : HSet Nat)).sets ≠ [] :=
  (chainSet_insert_fallback_unreachable (ChainSet.new [3]) (ReachableS.new _)).1

end HashChain
